import Mathlib

/-!
Verification of the IBKR portfolio tracker's valuation and metrics layer.

Numeric values are modelled as exact rationals (`ℚ`); the one place the
source takes a square root (`Math.sqrt` in the Sharpe-ratio computation)
is modelled with `Real.sqrt`.  Dates are modelled as natural-number day
indices.  JavaScript's `Math.round` (round half toward positive infinity)
is modelled by `jsRound`.  Backend services that are documented but whose
Python sources are not part of the repository snapshot (the rate cache,
lot ledger, valuation engine and ticker resolver) are modelled from the
specification; their doc comments say so explicitly.
-/

namespace IBKR

/-- A point of the portfolio value series as served by the backend API
(`PortfolioValuePoint` in the frontend API client): calendar date,
cost basis and market value, both in EUR. -/
structure ValuePoint where
  date : ℕ
  cost_basis_eur : ℚ
  market_value_eur : ℚ
  deriving DecidableEq, Repr

/-- A position row as served by the backend API (`Position` in the
frontend API client), restricted to its numeric fields. -/
structure Position where
  quantity : ℚ
  cost_basis_eur : ℚ
  market_value_eur : ℚ
  gain_loss_eur : ℚ
  deriving DecidableEq, Repr

/-- JavaScript `Math.round`: rounds half toward positive infinity. -/
def jsRound (x : ℚ) : ℤ := ⌊x + 1 / 2⌋

/-! ## Maximum drawdown (Dashboard.tsx, `kpiMetrics`)

The source iterates over the market-value series keeping a running `peak`
(initialised to the first value) and a running most-negative drawdown
percentage `maxDrawdown` (initialised to `0`); at each point it first
raises the peak, then, when the peak is positive, lowers `maxDrawdown`
to `((value - peak) / peak) * 100` when that is smaller. -/

/-- The loop body of the max-drawdown computation: state is the running
peak and the running most-negative drawdown percentage. -/
def maxDrawdownLoop : List ℚ → ℚ → ℚ → ℚ
  | [], _, md => md
  | v :: rest, peak, md =>
    let peak' := if peak < v then v else peak
    let md' :=
      if 0 < peak' then
        if (v - peak') / peak' * 100 < md then (v - peak') / peak' * 100 else md
      else md
    maxDrawdownLoop rest peak' md'

/-- Maximum drawdown of a market-value series, in percent, exactly as
computed by `kpiMetrics` in `Dashboard.tsx`: peak starts at the first
value, accumulator starts at `0`. -/
def maxDrawdown (vs : List ℚ) : ℚ :=
  match vs with
  | [] => 0
  | v :: rest => maxDrawdownLoop (v :: rest) v 0

/-- Each series value paired with its running peak (the maximum of the
series up to and including that point), threading the peak from an
initial value. -/
def withPeaks : List ℚ → ℚ → List (ℚ × ℚ)
  | [], _ => []
  | v :: rest, peak =>
    let p := max peak v
    (v, p) :: withPeaks rest p

/-- The spec's drawdown series: at each point, `(value − peak) / peak`
(as a percentage) where `peak` is the running maximum of market value up
to that point. -/
def specDrawdowns (vs : List ℚ) (peak : ℚ) : List ℚ :=
  (withPeaks vs peak).map (fun vp => (vp.1 - vp.2) / vp.2 * 100)

/-- The spec's max drawdown: the most negative drawdown observed across
the series, and `0` when the value never falls below its running peak. -/
def specMaxDrawdown (vs : List ℚ) : ℚ :=
  match vs with
  | [] => 0
  | v :: _ => (specDrawdowns vs v).foldl min 0

/-! ## Sharpe ratio (Dashboard.tsx, `kpiMetrics`) -/

/-- Daily returns of the market-value series, as computed by
`kpiMetrics`: for each consecutive pair with a positive previous value,
`(curr − prev) / prev`; pairs with non-positive previous value are
skipped. -/
def dailyReturns : List ℚ → List ℚ
  | [] => []
  | [_] => []
  | v₀ :: v₁ :: rest =>
    (if 0 < v₀ then [(v₁ - v₀) / v₀] else []) ++ dailyReturns (v₁ :: rest)

/-- Average of a list of returns (`avgReturn` in the source). -/
def meanReturn (rs : List ℚ) : ℚ := rs.sum / rs.length

/-- Population variance of a list of returns (`variance` in the
source): mean squared deviation from the average. -/
def returnVariance (rs : List ℚ) : ℚ :=
  (rs.map (fun r => (r - meanReturn rs) ^ 2)).sum / rs.length

/-- Annualized standard deviation of daily returns
(`annualizedStdDev = stdDev * Math.sqrt(252)` in the source, with
`stdDev = Math.sqrt(variance)`); `Math.sqrt` is modelled by
`Real.sqrt`. -/
noncomputable def annualizedStdDev (rs : List ℚ) : ℝ :=
  Real.sqrt (returnVariance rs) * Real.sqrt 252

open Classical in
/-- The Sharpe-like ratio of `kpiMetrics`: `0` with fewer than five
daily returns; otherwise the annualized mean return minus a 3% risk-free
rate, divided by the annualized standard deviation when that exceeds
`0.001` (`0` otherwise), the result clamped to `[-10, 10]`. -/
noncomputable def sharpeRatio (vs : List ℚ) : ℝ :=
  let returns := dailyReturns vs
  if 5 ≤ returns.length then
    let annualizedReturn : ℝ := (meanReturn returns : ℝ) * 252
    let s : ℝ :=
      if 1 / 1000 < annualizedStdDev returns then
        (annualizedReturn - 3 / 100) / annualizedStdDev returns
      else 0
    max (-10) (min 10 s)
  else 0

/-! ## Win rate (Dashboard.tsx, `kpiMetrics`) -/

/-- The number of profitable positions: those with strictly positive
`gain_loss_eur`, as in `positions.filter(p => p.gain_loss_eur > 0).length`. -/
def profitablePositions (ps : List Position) : ℕ :=
  (ps.filter (fun p => 0 < p.gain_loss_eur)).length

/-- Win rate as computed by `kpiMetrics`: the share of profitable
positions as a percentage, `0` for an empty positions list. -/
def winRate (ps : List Position) : ℚ :=
  if 0 < ps.length then
    ((profitablePositions ps : ℚ) / (ps.length : ℚ)) * 100
  else 0

/-! ## Period performance (Dashboard.tsx, `performanceMetrics`) -/

/-- The result record of the `performanceMetrics` memo in `Dashboard.tsx`. -/
structure PerformanceMetrics where
  startValue : ℚ
  currentValue : ℚ
  absoluteChange : ℚ
  percentageChange : ℚ
  periodGain : ℚ
  periodGainPercent : ℚ
  deriving DecidableEq, Repr

/-- The `performanceMetrics` memo: `null` (`none`) on an empty series;
otherwise market-value change between the first and last point, and the
profit change over the period divided by the starting cost basis. -/
def performanceMetrics (vs : List ValuePoint) : Option PerformanceMetrics :=
  match vs with
  | [] => none
  | first :: rest =>
    let last := rest.getLast? |>.getD first
    let startValue := first.market_value_eur
    let currentValue := last.market_value_eur
    let absoluteChange := currentValue - startValue
    let percentageChange :=
      if 0 < startValue then absoluteChange / startValue * 100 else 0
    let startProfit := first.market_value_eur - first.cost_basis_eur
    let currentProfit := last.market_value_eur - last.cost_basis_eur
    let periodGain := currentProfit - startProfit
    let startCostBasis := first.cost_basis_eur
    let periodGainPercent :=
      if 0 < startCostBasis then periodGain / startCostBasis * 100 else 0
    some ⟨startValue, currentValue, absoluteChange, percentageChange,
      periodGain, periodGainPercent⟩

/-- The spec's percentage-gain formula evaluated at a single series
point: `(market_value − cost_basis) / cost_basis`, as a percentage. -/
def specGainPercentAt (p : ValuePoint) : ℚ :=
  (p.market_value_eur - p.cost_basis_eur) / p.cost_basis_eur * 100

/-! ## Concentration metric -/

/-- Modelled from the spec: the concentration metric ("sum of the
largest-N positions' weight by market value over total market value",
displayed as the top-5 weight); the backend computation is absent from
the repository snapshot, only its display is present. -/
def concentration (n : ℕ) (ps : List Position) : ℚ :=
  let values := ps.map (fun p => p.market_value_eur)
  let total := values.sum
  if 0 < total then ((values.insertionSort (· ≥ ·)).take n).sum / total * 100
  else 0

/-! ## Rate cache (spec §4.1, backend `CurrencyService`) -/

/-- The error raised by the rate cache when no rate exists at or before
a requested date. -/
inductive RateError where
  | NoRateAvailable
  deriving DecidableEq, Repr

/-- Exact-date lookup in a dated cache: the value stored at the
requested date, if any. -/
def lookupExact : List (ℕ × ℚ) → ℕ → Option ℚ
  | [], _ => none
  | row :: rest, d => if row.1 = d then some row.2 else lookupExact rest d

/-- Carry-forward lookup in a dated cache: the row with the greatest
date strictly before the requested date, if any. -/
def lookupPrior : List (ℕ × ℚ) → ℕ → Option (ℕ × ℚ)
  | [], _ => none
  | row :: rest, d =>
    if row.1 < d then
      match lookupPrior rest d with
      | none => some row
      | some best => if best.1 < row.1 then some row else some best
    else lookupPrior rest d

/-- Modelled from the spec: `get_rate` of the Rate Cache (backend
`CurrencyService`, whose Python source is not in the repository
snapshot).  The cache argument is the stored rate rows for one currency
pair after the batched upstream fetch.  An exact date match returns the
cached rate; otherwise the rate of the nearest prior date with data is
returned unchanged; `NoRateAvailable` when no date at or before the
requested one has a rate. -/
def get_rate (cache : List (ℕ × ℚ)) (d : ℕ) : Except RateError ℚ :=
  match lookupExact cache d with
  | some r => .ok r
  | none =>
    match lookupPrior cache d with
    | some row => .ok row.2
    | none => .error RateError.NoRateAvailable

/-! ## Lot ledger (spec §4.4, backend `PortfolioService`) -/

/-- A tax lot: open date, optional close date, quantity and cost bases
(in security currency and pre-converted EUR). -/
structure TaxLot where
  open_date : ℕ
  close_date : Option ℕ
  quantity : ℚ
  cost_basis : ℚ
  cost_basis_eur : ℚ
  deriving DecidableEq, Repr

/-- Modelled from the spec: the active-tax-lot predicate of the backend
`PortfolioService` (absent from the repository snapshot): a lot is open
as of `d` iff `open_date ≤ d` and it has no close date recorded or its
close date is after `d`. -/
def openAsOf (lot : TaxLot) (d : ℕ) : Bool :=
  decide (lot.open_date ≤ d) &&
    match lot.close_date with
    | none => true
    | some c => decide (d < c)

/-- The aggregate returned by `aggregate_as_of`: total quantity and both
cost-basis fields across qualifying lots. -/
structure Aggregate where
  quantity : ℚ
  cost_basis : ℚ
  cost_basis_eur : ℚ
  deriving DecidableEq, Repr

/-- Modelled from the spec: `aggregate_as_of` of the Lot Ledger (backend
`PortfolioService`, whose Python source is not in the repository
snapshot): sums quantity and both cost-basis fields across the lots open
as of the given date. -/
def aggregate_as_of (ledger : List TaxLot) (d : ℕ) : Aggregate :=
  let lots := ledger.filter (fun lot => openAsOf lot d)
  ⟨(lots.map (fun lot => lot.quantity)).sum,
   (lots.map (fun lot => lot.cost_basis)).sum,
   (lots.map (fun lot => lot.cost_basis_eur)).sum⟩

/-! ## Valuation engine (spec §4.5, backend `PortfolioService`) -/

/-- The designated EUR currency code in the model. -/
def eur : ℕ := 0

/-- A security: identity and native currency code. -/
structure Security where
  id : ℕ
  currency : ℕ
  deriving DecidableEq, Repr

/-- A security together with its tax lots. -/
structure Holding where
  security : Security
  lots : List TaxLot
  deriving DecidableEq, Repr

/-- Price lookup with carry-forward: the cached price at the date, else
the most recent earlier cached price (never a later one). -/
def priceAsOf (prices : List (ℕ × ℚ)) (d : ℕ) : Option ℚ :=
  match lookupExact prices d with
  | some px => some px
  | none => (lookupPrior prices d).map (fun row => row.2)

/-- Modelled from the spec: one security's market-value contribution in
EUR for a date, from the Valuation Engine (backend `PortfolioService`,
absent from the repository snapshot): quantity times the carried-forward
price, converted with the rate cache (same-currency short-circuits to
rate 1); `none` when no price, or no rate, is available at or before the
date. -/
def marketValueContrib (prices : ℕ → List (ℕ × ℚ)) (rates : ℕ → List (ℕ × ℚ))
    (h : Holding) (d : ℕ) : Option ℚ :=
  match priceAsOf (prices h.security.id) d with
  | none => none
  | some px =>
    let qty := (aggregate_as_of h.lots d).quantity
    if h.security.currency = eur then some (qty * px)
    else
      match get_rate (rates h.security.currency) d with
      | .ok r => some (qty * px * r)
      | .error _ => none

/-- Whether a holding qualifies at a date: it has at least one lot
opened on or before the date. -/
def qualifies (h : Holding) (d : ℕ) : Bool :=
  h.lots.any (fun lot => decide (lot.open_date ≤ d))

/-- Modelled from the spec: `value_over_time` of the Valuation Engine
(backend `PortfolioService`, absent from the repository snapshot).  For
each date of the range with at least one qualifying holding it produces
a point whose cost basis sums `aggregate_as_of` over the qualifying
holdings and whose market value sums the available market-value
contributions, a holding with no usable price or rate contributing only
to cost basis; dates with no qualifying holding produce no point, so a
request with no data at all yields an empty series. -/
def value_over_time (holdings : List Holding) (prices : ℕ → List (ℕ × ℚ))
    (rates : ℕ → List (ℕ × ℚ)) (range : List ℕ) : List ValuePoint :=
  range.filterMap (fun d =>
    let qs := holdings.filter (fun h => qualifies h d)
    if qs.isEmpty then none
    else
      some ⟨d,
        (qs.map (fun h => (aggregate_as_of h.lots d).cost_basis_eur)).sum,
        (qs.map (fun h => (marketValueContrib prices rates h d).getD 0)).sum⟩)

/-! ## Ticker resolver (spec §4.2, backend `MarketDataService`) -/

/-- The error raised when no ticker candidate verifies. -/
inductive ResolveError where
  | TickerNotResolved
  deriving DecidableEq, Repr

/-- Lookup of an existing ticker mapping for the exact
(symbol, exchange) pair. -/
def lookupMapping : List ((String × String) × String) → String → String → Option String
  | [], _, _ => none
  | row :: rest, sym, exch =>
    if row.1 = (sym, exch) then some row.2 else lookupMapping rest sym exch

/-- Modelled from the spec: the static exchange-to-suffix table
(`EXCHANGE_SUFFIXES` of the backend `MarketDataService`, absent from the
repository snapshot). -/
def exchangeSuffix : String → Option String
  | "XETRA" => some ".DE"
  | "IBIS2" => some ".DE"
  | "LSEETF" => some ".L"
  | "AEB" => some ".AS"
  | _ => none

/-- The ordered list of suffix variations tried by auto-discovery,
including the empty suffix. -/
def suffixVariations : List String := [".DE", ".F", ".L", ""]

/-- Probe candidate tickers in order, returning the first that verifies
together with the list of probe calls made. -/
def probeCandidates (probe : String → Bool) : List String → Except ResolveError String × List String
  | [] => (.error ResolveError.TickerNotResolved, [])
  | c :: cs =>
    if probe c then (.ok c, [c])
    else
      let r := probeCandidates probe cs
      (r.1, c :: r.2)

/-- Modelled from the spec: `resolve` of the Ticker Resolver (backend
`MarketDataService`, absent from the repository snapshot).  Three-tier
lookup: an existing mapping for the exact (symbol, exchange) pair is
returned as is; otherwise the suffix-heuristic candidate and then the
suffix variations are probed in order.  The second component records
every probe call made against the market-data provider. -/
def resolve (mappings : List ((String × String) × String)) (probe : String → Bool)
    (symbol exchange : String) : Except ResolveError String × List String :=
  match lookupMapping mappings symbol exchange with
  | some t => (.ok t, [])
  | none =>
    let heuristic :=
      match exchangeSuffix exchange with
      | some suf => [symbol ++ suf]
      | none => []
    let candidates := heuristic ++ suffixVariations.map (fun suf => symbol ++ suf)
    probeCandidates probe candidates

/-! ## Savings forecast (ForecastTab, `projections`) -/

/-- One row of the `projections` memo in `ForecastTab`: all displayed
amounts are rounded to whole euros. -/
structure ProjectionEntry where
  year : ℕ
  futureValue : ℤ
  totalContributions : ℤ
  investmentGains : ℤ
  portfolioGrowth : ℤ
  deriving DecidableEq, Repr

/-- The `safeValue` guard of `ForecastTab`: JavaScript coerces
non-finite numbers to `0` before rounding; in the exact-rational model
every value is finite, so the guard is the identity. -/
def safeValue (x : ℚ) : ℚ := x

/-- The fixed horizon years of the `projections` memo. -/
def projectionYears : List ℕ := [1, 5, 10, 15, 20]

/-- The contributions term of the future-value formula, with the
source's explicit guard: `PMT × m` when the monthly rate is zero,
`PMT × ((1+r)^m − 1) / r` otherwise. -/
def contributionsGrowth (monthlyRate pmt : ℚ) (months : ℕ) : ℚ :=
  if monthlyRate = 0 then pmt * months
  else pmt * (((1 + monthlyRate) ^ months - 1) / monthlyRate)

/-- The `projections` memo of `ForecastTab`: for each horizon year,
future value `PV(1+r)^m` plus the guarded contributions term, total
contributions and investment gains, each passed through `safeValue` and
rounded. -/
def projections (currentValue monthlyContribution expectedReturn : ℚ) :
    List ProjectionEntry :=
  let monthlyRate := expectedReturn / 100 / 12
  projectionYears.map (fun year =>
    let months := year * 12
    let portfolioGrowth := currentValue * (1 + monthlyRate) ^ months
    let contributions := contributionsGrowth monthlyRate monthlyContribution months
    let futureValue := portfolioGrowth + contributions
    let totalContributions := monthlyContribution * months
    let investmentGains := futureValue - currentValue - totalContributions
    ⟨year, jsRound (safeValue futureValue), jsRound (safeValue totalContributions),
      jsRound (safeValue investmentGains), jsRound (safeValue portfolioGrowth)⟩)

/-! # Theorems -/

/-! ## Max drawdown -/

lemma withPeaks_fst_le_snd (l : List ℚ) (peak : ℚ) :
    ∀ vp ∈ withPeaks l peak, vp.1 ≤ vp.2 := by
  induction l generalizing peak with
  | nil => simp [withPeaks]
  | cons v rest ih =>
    intro vp hvp
    simp only [withPeaks, List.mem_cons] at hvp
    rcases hvp with rfl | hvp
    · exact le_max_right _ _
    · exact ih _ vp hvp

lemma foldl_min_of_le (l : List ℚ) (md : ℚ) (h : ∀ x ∈ l, md ≤ x) :
    l.foldl min md = md := by
  induction l with
  | nil => rfl
  | cons x xs ih =>
    have hx : min md x = md := min_eq_left (h x (List.mem_cons_self _ _))
    simp only [List.foldl, hx]
    exact ih (fun y hy => h y (List.mem_cons_of_mem _ hy))

lemma maxDrawdownLoop_eq_foldl (l : List ℚ) (peak md : ℚ) (hmd : md ≤ 0) :
    maxDrawdownLoop l peak md = (specDrawdowns l peak).foldl min md := by
  induction l generalizing peak md with
  | nil => simp [maxDrawdownLoop, specDrawdowns, withPeaks]
  | cons v rest ih =>
    have hpeak : (if peak < v then v else peak) = max peak v := by
      rcases lt_or_ge peak v with h | h
      · simp [h, max_eq_right h.le]
      · simp [not_lt.mpr h, max_eq_left h]
    set p := max peak v with hp
    set dd := (v - p) / p * 100 with hdd
    have hstep : maxDrawdownLoop (v :: rest) peak md =
        maxDrawdownLoop rest p (if 0 < p then (if dd < md then dd else md) else md) := by
      simp only [maxDrawdownLoop, hpeak]
    have hrhs : (specDrawdowns (v :: rest) peak).foldl min md =
        (specDrawdowns rest p).foldl min (min md dd) := by
      simp only [specDrawdowns, withPeaks, List.map, List.foldl]
    rw [hstep, hrhs]
    by_cases hpos : 0 < p
    · have hmin : (if dd < md then dd else md) = min md dd := by
        rcases lt_or_ge dd md with h | h
        · simp [h, min_eq_right h.le]
        · simp [not_lt.mpr h, min_eq_left h]
      rw [if_pos hpos, hmin]
      exact ih p (min md dd) (le_trans (min_le_left _ _) hmd)
    · push_neg at hpos
      have hvp : v ≤ p := le_max_right _ _
      have hddnn : 0 ≤ dd := by
        have hnum : v - p ≤ 0 := sub_nonpos.mpr hvp
        exact mul_nonneg (div_nonneg_iff.mpr (Or.inr ⟨hnum, hpos⟩)) (by norm_num)
      have hmm : min md dd = md := min_eq_left (le_trans hmd hddnn)
      rw [if_neg (not_lt.mpr hpos), hmm]
      exact ih p md hmd

/-- Claim C1: the max-drawdown metric of `kpiMetrics` equals the most
negative value of `(value − peak) / peak` (in percent) over the series,
`peak` being the running maximum of market value up to each point; it is
`0` when the value never falls below its running peak; over
`[100, 120, 90, 110]` it is `−25%`. -/
theorem maxDrawdown_eq_spec (vs : List ℚ) (h : vs ≠ []) :
    maxDrawdown vs = specMaxDrawdown vs ∧
    ((∀ vp ∈ withPeaks vs vs.headI, vp.2 ≤ vp.1) → maxDrawdown vs = 0) ∧
    maxDrawdown [100, 120, 90, 110] = -25 := by
  match vs, h with
  | v :: rest, _ =>
    have heq : maxDrawdown (v :: rest) = specMaxDrawdown (v :: rest) := by
      simpa [maxDrawdown, specMaxDrawdown] using
        maxDrawdownLoop_eq_foldl (v :: rest) v 0 le_rfl
    refine ⟨heq, ?_, by norm_num [maxDrawdown, maxDrawdownLoop]⟩
    intro hnb
    rw [heq]
    have hzero : ∀ x ∈ specDrawdowns (v :: rest) v, (0 : ℚ) ≤ x := by
      intro x hx
      simp only [specDrawdowns, List.mem_map] at hx
      obtain ⟨vp, hvp, rfl⟩ := hx
      have h1 : vp.1 ≤ vp.2 := withPeaks_fst_le_snd _ _ vp hvp
      have h2 : vp.2 ≤ vp.1 := hnb vp (by simpa using hvp)
      have : vp.1 - vp.2 = 0 := by linarith
      simp [this]
    simpa [specMaxDrawdown] using foldl_min_of_le _ 0 hzero

/-- Witness for C1: the spec example evaluates to `−25%`, and a series
that never falls below its running peak evaluates to `0`. -/
theorem maxDrawdown_eq_spec_witness :
    maxDrawdown [100, 120, 90, 110] = -25 ∧ maxDrawdown [100, 120] = 0 :=
  ⟨(maxDrawdown_eq_spec [100, 120, 90, 110] (by simp)).2.2,
   (maxDrawdown_eq_spec [100, 120] (by simp)).2.1 (by norm_num [withPeaks])⟩

/-! ## Win rate -/

/-- Claim C9: the win rate equals `100` times the number of positions
with strictly positive `gain_loss_eur` divided by the number of
positions; it is `0` for an empty list; a position with gain exactly `0`
is not counted as profitable. -/
theorem winRate_eq_spec (ps : List Position) :
    winRate ps =
      100 * ((ps.countP (fun p => decide (0 < p.gain_loss_eur)) : ℚ) / ps.length) ∧
    winRate [] = 0 ∧
    (∀ p : Position, p.gain_loss_eur = 0 → winRate [p] = 0) := by
  refine ⟨?_, by simp [winRate], ?_⟩
  · cases ps with
    | nil => simp [winRate]
    | cons q qs =>
      have hlen : 0 < (q :: qs).length := by simp
      rw [winRate, if_pos hlen, profitablePositions, List.countP_eq_length_filter]
      ring
  · intro p hp
    have hfilter : (List.filter (fun p => decide (0 < p.gain_loss_eur)) [p]) = [] := by
      simp [List.filter, hp]
    simp [winRate, profitablePositions, hfilter]

/-- Witness for C9: two positions, one with gain `5` and one with gain
exactly `0`, give a win rate of `50%`; a single zero-gain position gives
`0%`. -/
theorem winRate_eq_spec_witness :
    winRate [⟨1, 10, 15, 5⟩, ⟨1, 10, 10, 0⟩] =
      100 * ((List.countP (fun p => decide (0 < p.gain_loss_eur))
        [(⟨1, 10, 15, 5⟩ : Position), ⟨1, 10, 10, 0⟩] : ℚ) / 2) ∧
    winRate [(⟨1, 10, 10, 0⟩ : Position)] = 0 :=
  ⟨by simpa using (winRate_eq_spec [⟨1, 10, 15, 5⟩, ⟨1, 10, 10, 0⟩]).1,
   (winRate_eq_spec []).2.2 ⟨1, 10, 10, 0⟩ rfl⟩

/-! ## Period gain (corrected claim C7) -/

/-- Counterexample to C7 as stated: over the series
`[(cb 100, mv 100), (cb 200, mv 220)]` the reported period gain percent
is `20%`, while `(market_value − cost_basis) / cost_basis` is `10%` at
the last endpoint and `0%` at the first (so neither endpoint value nor
their difference matches), and the reported market-value percentage
change is `120%`. -/
theorem periodGainPercent_counterexample :
    performanceMetrics [⟨0, 100, 100⟩, ⟨1, 200, 220⟩] =
      some ⟨100, 220, 120, 120, 20, 20⟩ ∧
    specGainPercentAt ⟨1, 200, 220⟩ = 10 ∧
    specGainPercentAt ⟨0, 100, 100⟩ = 0 ∧
    (20 : ℚ) ≠ 10 ∧ (20 : ℚ) ≠ 10 - 0 ∧ (120 : ℚ) ≠ 10 := by
  refine ⟨?_, ?_, ?_, by norm_num, by norm_num, by norm_num⟩
  · simp only [performanceMetrics]
    norm_num
  · norm_num [specGainPercentAt]
  · norm_num [specGainPercentAt]

/-- Claim C7 (amended): the reported period gain percent equals the
change in profit `market_value − cost_basis` between the first and last
series points, divided by the first point's cost basis (as a
percentage), and `0` when that cost basis is not positive; the reported
percentage change is the market-value change relative to the first
point's market value. -/
theorem periodGainPercent_formula (first : ValuePoint) (rest : List ValuePoint) :
    (performanceMetrics (first :: rest)).map (fun m => m.periodGainPercent) =
      some (if 0 < first.cost_basis_eur then
        (((rest.getLast?.getD first).market_value_eur -
            (rest.getLast?.getD first).cost_basis_eur) -
          (first.market_value_eur - first.cost_basis_eur)) /
            first.cost_basis_eur * 100
      else 0) ∧
    (performanceMetrics (first :: rest)).map (fun m => m.percentageChange) =
      some (if 0 < first.market_value_eur then
        ((rest.getLast?.getD first).market_value_eur -
          first.market_value_eur) / first.market_value_eur * 100
      else 0) := by
  constructor <;> simp [performanceMetrics]

/-! ## Sharpe ratio -/

/-- Claim C6: the Sharpe-like ratio is always within `[-10, 10]`, and it
is `0` whenever the annualized volatility is at most the `0.001`
guard threshold. -/
theorem sharpeRatio_guarded_clamped (vs : List ℚ) :
    (-10 ≤ sharpeRatio vs ∧ sharpeRatio vs ≤ 10) ∧
    (annualizedStdDev (dailyReturns vs) ≤ 1 / 1000 → sharpeRatio vs = 0) := by
  unfold sharpeRatio
  by_cases hlen : 5 ≤ (dailyReturns vs).length
  · simp only [hlen, if_true]
    constructor
    · constructor
      · exact le_max_left _ _
      · exact max_le (by norm_num) (min_le_left _ _)
    · intro hstd
      rw [if_neg (not_lt.mpr hstd)]
      rw [min_eq_right (by norm_num : (0 : ℝ) ≤ 10),
        max_eq_right (by norm_num : (-10 : ℝ) ≤ 0)]
  · rw [if_neg hlen]
    exact ⟨⟨by norm_num, by norm_num⟩, fun _ => rfl⟩

/-- Witness for C6: the flat two-point series has zero annualized
volatility, hence a Sharpe ratio of `0`. -/
theorem sharpeRatio_guarded_clamped_witness :
    annualizedStdDev (dailyReturns [100, 100]) ≤ 1 / 1000 ∧
    sharpeRatio [100, 100] = 0 := by
  have hret : dailyReturns [100, 100] = [0] := by
    norm_num [dailyReturns]
  have hvar : returnVariance [0] = 0 := by
    norm_num [returnVariance, meanReturn]
  have hstd : annualizedStdDev (dailyReturns [100, 100]) ≤ 1 / 1000 := by
    rw [hret, annualizedStdDev, hvar]
    norm_num [Real.sqrt_zero]
  exact ⟨hstd, (sharpeRatio_guarded_clamped [100, 100]).2 hstd⟩

/-! ## Determinism of the metrics -/

/-- Claim C8: every metric is a deterministic pure function of the
valuation series and positions snapshot: the metrics are total functions
of their arguments, so two evaluations on equal inputs give equal
outputs, with no dependence on hidden state or effects. -/
theorem metrics_deterministic (vs vs' : List ℚ) (pts pts' : List ValuePoint)
    (ps ps' : List Position) (hv : vs = vs') (hpt : pts = pts') (hp : ps = ps') :
    maxDrawdown vs = maxDrawdown vs' ∧
    sharpeRatio vs = sharpeRatio vs' ∧
    winRate ps = winRate ps' ∧
    performanceMetrics pts = performanceMetrics pts' ∧
    concentration 5 ps = concentration 5 ps' := by
  subst hv; subst hpt; subst hp
  exact ⟨rfl, rfl, rfl, rfl, rfl⟩

/-! ## Rate cache lemmas -/

lemma lookupExact_eq_none (cache : List (ℕ × ℚ)) (d : ℕ) :
    lookupExact cache d = none ↔ ∀ row ∈ cache, row.1 ≠ d := by
  induction cache with
  | nil => simp [lookupExact]
  | cons row rest ih =>
    by_cases h : row.1 = d
    · simp [lookupExact, h]
    · simp [lookupExact, h, ih]

lemma lookupExact_of_mem (cache : List (ℕ × ℚ)) (d : ℕ) (r : ℚ)
    (hnd : (cache.map Prod.fst).Nodup) (hm : (d, r) ∈ cache) :
    lookupExact cache d = some r := by
  induction cache with
  | nil => cases hm
  | cons row rest ih =>
    have hnd0 : (row.1 :: rest.map Prod.fst).Nodup := by
      rw [← List.map_cons]; exact hnd
    have hnd' := List.nodup_cons.mp hnd0
    rcases List.mem_cons.mp hm with rfl | hm'
    · simp [lookupExact]
    · have hne : row.1 ≠ d := by
        intro h
        exact hnd'.1 (by rw [h]; exact List.mem_map_of_mem Prod.fst hm')
      simp only [lookupExact, if_neg hne]
      exact ih hnd'.2 hm'

lemma lookupPrior_eq_none (cache : List (ℕ × ℚ)) (d : ℕ) :
    lookupPrior cache d = none ↔ ∀ row ∈ cache, ¬row.1 < d := by
  induction cache with
  | nil => simp [lookupPrior]
  | cons row rest ih =>
    simp only [lookupPrior]
    by_cases h : row.1 < d
    · rw [if_pos h]
      constructor
      · intro hcontra
        exfalso
        cases htail : lookupPrior rest d with
        | none =>
          rw [htail] at hcontra
          exact Option.noConfusion hcontra
        | some best =>
          rw [htail] at hcontra
          dsimp only at hcontra
          by_cases hb : best.1 < row.1
          · rw [if_pos hb] at hcontra; exact Option.noConfusion hcontra
          · rw [if_neg hb] at hcontra; exact Option.noConfusion hcontra
      · intro hall
        exact absurd h (hall row (List.mem_cons_self _ _))
    · rw [if_neg h, ih]
      constructor
      · intro hall row' hrow'
        rcases List.mem_cons.mp hrow' with rfl | hrow'
        · exact h
        · exact hall row' hrow'
      · intro hall row' hrow'
        exact hall row' (List.mem_cons_of_mem _ hrow')

lemma lookupPrior_spec (cache : List (ℕ × ℚ)) (d : ℕ) :
    ∀ row, lookupPrior cache d = some row →
      row ∈ cache ∧ row.1 < d ∧ ∀ r' ∈ cache, r'.1 < d → r'.1 ≤ row.1 := by
  induction cache with
  | nil => intro row h; cases h
  | cons q rest ih =>
    intro row h
    simp only [lookupPrior] at h
    by_cases hq : q.1 < d
    · rw [if_pos hq] at h
      cases htail : lookupPrior rest d with
      | none =>
        rw [htail] at h
        dsimp only at h
        obtain rfl : q = row := Option.some.inj h
        have hrest := (lookupPrior_eq_none rest d).mp htail
        refine ⟨List.mem_cons_self _ _, hq, ?_⟩
        intro r' hr' hlt
        rcases List.mem_cons.mp hr' with rfl | hr'
        · exact le_refl _
        · exact absurd hlt (hrest r' hr')
      | some best =>
        rw [htail] at h
        dsimp only at h
        obtain ⟨hbmem, hbd, hbmax⟩ := ih best htail
        by_cases hb : best.1 < q.1
        · rw [if_pos hb] at h
          obtain rfl : q = row := Option.some.inj h
          refine ⟨List.mem_cons_self _ _, hq, ?_⟩
          intro r' hr' hlt
          rcases List.mem_cons.mp hr' with rfl | hr'
          · exact le_refl _
          · exact le_trans (hbmax r' hr' hlt) hb.le
        · rw [if_neg hb] at h
          obtain rfl : best = row := Option.some.inj h
          refine ⟨List.mem_cons_of_mem _ hbmem, hbd, ?_⟩
          intro r' hr' hlt
          rcases List.mem_cons.mp hr' with rfl | hr'
          · exact not_lt.mp hb
          · exact hbmax r' hr' hlt
    · rw [if_neg hq] at h
      obtain ⟨hmem, hd, hmax⟩ := ih row h
      refine ⟨List.mem_cons_of_mem _ hmem, hd, ?_⟩
      intro r' hr' hlt
      rcases List.mem_cons.mp hr' with rfl | hr'
      · exact absurd hlt hq
      · exact hmax r' hr' hlt

lemma lookupExact_mem (cache : List (ℕ × ℚ)) (d : ℕ) (r : ℚ)
    (h : lookupExact cache d = some r) : (d, r) ∈ cache := by
  induction cache with
  | nil => cases h
  | cons row rest ih =>
    by_cases hd : row.1 = d
    · rw [lookupExact, if_pos hd] at h
      have heq : (d, r) = row := by
        rw [← hd, ← Option.some.inj h]
      rw [heq]
      exact List.mem_cons_self _ _
    · rw [lookupExact, if_neg hd] at h
      exact List.mem_cons_of_mem _ (ih h)

lemma keys_nodup_unique (l : List (ℕ × ℚ)) (hnd : (l.map Prod.fst).Nodup)
    {a : ℕ} {b c : ℚ} (h1 : (a, b) ∈ l) (h2 : (a, c) ∈ l) : b = c := by
  induction l with
  | nil => cases h1
  | cons q rest ih =>
    have hnd0 : (q.1 :: rest.map Prod.fst).Nodup := by
      rw [← List.map_cons]; exact hnd
    have hnd' := List.nodup_cons.mp hnd0
    rcases List.mem_cons.mp h1 with heq1 | h1'
    · rcases List.mem_cons.mp h2 with heq2 | h2'
      · have hbc : (a, b) = (a, c) := heq1.trans heq2.symm
        simpa using hbc
      · exfalso
        have hq1 : q.1 = a := by rw [← heq1]
        apply hnd'.1
        rw [hq1]
        exact List.mem_map_of_mem Prod.fst h2'
    · rcases List.mem_cons.mp h2 with heq2 | h2'
      · exfalso
        have hq1 : q.1 = a := by rw [← heq2]
        apply hnd'.1
        rw [hq1]
        exact List.mem_map_of_mem Prod.fst h1'
      · exact ih hnd'.2 h1' h2'

/-- Claim C2: with unique cache keys, `get_rate` returns the cached rate
on an exact date match; when the date is missing it returns, unchanged,
the rate of the nearest prior date with data; and it fails with
`NoRateAvailable` exactly when neither the date nor any earlier date has
a rate. -/
theorem get_rate_spec (cache : List (ℕ × ℚ)) (d : ℕ)
    (hnd : (cache.map Prod.fst).Nodup) :
    (∀ r : ℚ, (d, r) ∈ cache → get_rate cache d = .ok r) ∧
    (∀ (d' : ℕ) (r : ℚ), (∀ r₀ : ℚ, (d, r₀) ∉ cache) → (d', r) ∈ cache → d' < d →
      (∀ row ∈ cache, row.1 < d → row.1 ≤ d') → get_rate cache d = .ok r) ∧
    (get_rate cache d = .error RateError.NoRateAvailable ↔
      ∀ row ∈ cache, d < row.1) := by
  refine ⟨?_, ?_, ?_⟩
  · intro r hm
    unfold get_rate
    rw [lookupExact_of_mem cache d r hnd hm]
  · intro d' r hmiss hm hlt hmax
    have hnone : lookupExact cache d = none := by
      rw [lookupExact_eq_none]
      intro row hrow h
      exact hmiss row.2 (by rw [← h]; exact hrow)
    cases hprior : lookupPrior cache d with
    | none =>
      exact absurd hlt ((lookupPrior_eq_none cache d).mp hprior (d', r) hm)
    | some row =>
      obtain ⟨hmem, hrowd, hrowmax⟩ := lookupPrior_spec cache d row hprior
      have h1 : row.1 ≤ d' := hmax row hmem hrowd
      have h2 : d' ≤ row.1 := hrowmax (d', r) hm hlt
      have hkey : row.1 = d' := le_antisymm h1 h2
      have hrmem : (d', row.2) ∈ cache := by
        have heq : row = (d', row.2) := by
          rw [← hkey]
        rw [← heq]; exact hmem
      have hval : row.2 = r := keys_nodup_unique cache hnd hrmem hm
      unfold get_rate
      rw [hnone, hprior]
      dsimp only
      rw [hval]
  · cases hex : lookupExact cache d with
    | some r =>
      unfold get_rate
      rw [hex]
      dsimp only
      constructor
      · intro h; exact Except.noConfusion h
      · intro hall
        exfalso
        have hmem : (d, r) ∈ cache := lookupExact_mem cache d r hex
        exact absurd (hall (d, r) hmem) (lt_irrefl d)
    | none =>
      cases hprior : lookupPrior cache d with
      | some row =>
        unfold get_rate
        rw [hex, hprior]
        dsimp only
        constructor
        · intro h; exact Except.noConfusion h
        · intro hall
          exfalso
          obtain ⟨hmem, hrowd, _⟩ := lookupPrior_spec cache d row hprior
          exact absurd hrowd (not_lt.mpr (hall row hmem).le)
      | none =>
        unfold get_rate
        rw [hex, hprior]
        dsimp only
        constructor
        · intro _ row hrow
          have h1 : row.1 ≠ d := (lookupExact_eq_none cache d).mp hex row hrow
          have h2 : ¬row.1 < d := (lookupPrior_eq_none cache d).mp hprior row hrow
          exact lt_of_le_of_ne (not_lt.mp h2) (Ne.symm h1)
        · intro _; rfl

/-- Witness for C2: in the cache `[(1, 2), (3, 5)]` the missing date 4
carries the rate of the nearest prior date 3 forward unchanged. -/
theorem get_rate_spec_witness :
    get_rate [(1, 2), (3, 5)] 4 = .ok 5 :=
  (get_rate_spec [(1, 2), (3, 5)] 4 (by simp)).2.1 3 5
    (by intro r₀ h; simp at h)
    (by simp) (by norm_num)
    (by intro row hrow hlt; rcases List.mem_cons.mp hrow with rfl | hrow <;> simp_all)

/-! ## Lot ledger -/

lemma openAsOf_iff (lot : TaxLot) (d : ℕ) :
    openAsOf lot d = true ↔
      lot.open_date ≤ d ∧
        (lot.close_date = none ∨ ∃ c, lot.close_date = some c ∧ d < c) := by
  unfold openAsOf
  cases hc : lot.close_date with
  | none => simp
  | some c => simp [hc]

lemma openAsOf_mono (lot : TaxLot) (d₁ d₂ : ℕ) (h12 : d₁ ≤ d₂)
    (hnc : ∀ c, lot.close_date = some c → ¬(d₁ < c ∧ c ≤ d₂)) :
    openAsOf lot d₁ = true → openAsOf lot d₂ = true := by
  rw [openAsOf_iff, openAsOf_iff]
  rintro ⟨hopen, hclose⟩
  refine ⟨le_trans hopen h12, ?_⟩
  rcases hclose with hnone | ⟨c, hc, hdc⟩
  · exact Or.inl hnone
  · refine Or.inr ⟨c, hc, ?_⟩
    have hnotle : ¬c ≤ d₂ := fun hle => hnc c hc ⟨hdc, hle⟩
    exact not_le.mp hnotle

lemma sum_map_filter_eq {α : Type} (p : α → Bool) (f : α → ℚ) (l : List α) :
    ((l.filter p).map f).sum = (l.map (fun x => if p x then f x else 0)).sum := by
  induction l with
  | nil => rfl
  | cons x xs ih =>
    by_cases h : p x <;> simp [List.filter_cons, h, ih]

/-- Claim C3: while no lot closes between `d₁ ≤ d₂` (and cost bases are
nonnegative, per the data-model invariant for purchase lots), both
cost-basis aggregates are monotone from `d₁` to `d₂`; and a lot is
counted at `d` exactly when it opened on or before `d` and has no close
date or a close date after `d` (so the aggregate never reflects a lot
opened after `d`). -/
theorem aggregate_as_of_monotone (ledger : List TaxLot) (d₁ d₂ : ℕ) (h12 : d₁ ≤ d₂)
    (hcb : ∀ lot ∈ ledger, 0 ≤ lot.cost_basis ∧ 0 ≤ lot.cost_basis_eur)
    (hnoclose : ∀ lot ∈ ledger, ∀ c, lot.close_date = some c → ¬(d₁ < c ∧ c ≤ d₂)) :
    (aggregate_as_of ledger d₁).cost_basis ≤ (aggregate_as_of ledger d₂).cost_basis ∧
    (aggregate_as_of ledger d₁).cost_basis_eur ≤
      (aggregate_as_of ledger d₂).cost_basis_eur ∧
    ∀ (d : ℕ) (lot : TaxLot), openAsOf lot d = true ↔
      lot.open_date ≤ d ∧
        (lot.close_date = none ∨ ∃ c, lot.close_date = some c ∧ d < c) := by
  have key : ∀ f : TaxLot → ℚ, (∀ lot ∈ ledger, 0 ≤ f lot) →
      ((ledger.filter (fun lot => openAsOf lot d₁)).map f).sum ≤
        ((ledger.filter (fun lot => openAsOf lot d₂)).map f).sum := by
    intro f hf
    rw [sum_map_filter_eq, sum_map_filter_eq]
    apply List.sum_le_sum
    intro lot hlot
    by_cases h1 : openAsOf lot d₁ = true
    · have h2 : openAsOf lot d₂ = true :=
        openAsOf_mono lot d₁ d₂ h12 (hnoclose lot hlot) h1
      simp [h1, h2]
    · by_cases h2 : openAsOf lot d₂ = true
      · simp [h1, h2, hf lot hlot]
      · simp [h1, h2]
  refine ⟨?_, ?_, fun d lot => openAsOf_iff lot d⟩
  · simpa [aggregate_as_of] using
      key (fun lot => lot.cost_basis) (fun lot hl => (hcb lot hl).1)
  · simpa [aggregate_as_of] using
      key (fun lot => lot.cost_basis_eur) (fun lot hl => (hcb lot hl).2)

/-- Witness for C3: two never-closing lots opened at days 0 and 3 give a
cost-basis aggregate of 10 at day 1 and 30 at day 5. -/
theorem aggregate_as_of_monotone_witness :
    (aggregate_as_of [⟨0, none, 1, 10, 10⟩, ⟨3, none, 2, 20, 20⟩] 1).cost_basis ≤
      (aggregate_as_of [⟨0, none, 1, 10, 10⟩, ⟨3, none, 2, 20, 20⟩] 5).cost_basis :=
  (aggregate_as_of_monotone [⟨0, none, 1, 10, 10⟩, ⟨3, none, 2, 20, 20⟩] 1 5
    (by norm_num)
    (by intro lot hlot
        rcases List.mem_cons.mp hlot with rfl | hlot
        · exact ⟨by norm_num, by norm_num⟩
        · rcases List.mem_cons.mp hlot with rfl | hlot
          · exact ⟨by norm_num, by norm_num⟩
          · cases hlot)
    (by intro lot hlot c hc
        rcases List.mem_cons.mp hlot with rfl | hlot
        · cases hc
        · rcases List.mem_cons.mp hlot with rfl | hlot
          · cases hc
          · cases hlot)).1

/-! ## Valuation engine -/

lemma sum_map_zero {α : Type} (l : List α) :
    (l.map (fun _ => (0 : ℚ))).sum = 0 := by
  induction l with
  | nil => rfl
  | cons x xs ih => simp [ih]

lemma marketValueContrib_empty_prices (rates : ℕ → List (ℕ × ℚ)) (h : Holding)
    (d : ℕ) : marketValueContrib (fun _ => []) rates h d = none := rfl

/-- Claim C4: the valuation engine is a total function: on caches with
no data at all (no lots, no prices, no rates) it returns the empty
series, and for holdings with open lots but empty price and rate caches
every produced point is cost-basis-only — its market value is `0` and
its cost basis is the ledger aggregate of the qualifying holdings. -/
theorem value_over_time_no_data (holdings : List Holding) (range : List ℕ)
    (hno : ∀ h ∈ holdings, h.lots = []) :
    value_over_time holdings (fun _ => []) (fun _ => []) range = [] ∧
    ∀ (hs : List Holding) (rng : List ℕ),
      ∀ pt ∈ value_over_time hs (fun _ => []) (fun _ => []) rng,
        pt.market_value_eur = 0 ∧
        pt.cost_basis_eur =
          ((hs.filter (fun h => qualifies h pt.date)).map
            (fun h => (aggregate_as_of h.lots pt.date).cost_basis_eur)).sum := by
  constructor
  · unfold value_over_time
    rw [List.filterMap_eq_nil_iff]
    intro d _
    have hfil : holdings.filter (fun h => qualifies h d) = [] := by
      rw [List.filter_eq_nil_iff]
      intro h hm
      simp [qualifies, hno h hm]
    simp [hfil]
  · intro hs rng pt hpt
    unfold value_over_time at hpt
    obtain ⟨d, _, hfd⟩ := List.mem_filterMap.mp hpt
    dsimp only at hfd
    by_cases hq : (hs.filter (fun h => qualifies h d)).isEmpty
    · rw [if_pos hq] at hfd
      cases hfd
    · rw [if_neg hq] at hfd
      obtain rfl := Option.some.inj hfd
      refine ⟨?_, rfl⟩
      have hzero : ∀ h ∈ hs.filter (fun h => qualifies h d),
          (marketValueContrib (fun _ => []) (fun _ => []) h d).getD 0 = 0 := by
        intro h _
        rw [marketValueContrib_empty_prices]
        rfl
      show ((hs.filter (fun h => qualifies h d)).map
        (fun h => (marketValueContrib (fun _ => []) (fun _ => []) h d).getD 0)).sum = 0
      rw [List.map_congr_left hzero]
      exact sum_map_zero _

/-- Witness for C4: no holdings at all give the empty series, and a
holding with one open lot on empty caches produces the cost-basis-only
point `(date 3, cost basis 100, market value 0)`. -/
theorem value_over_time_no_data_witness :
    value_over_time [] (fun _ => []) (fun _ => []) [5] = [] ∧
    (⟨3, 100, 0⟩ : ValuePoint).market_value_eur = 0 :=
  ⟨(value_over_time_no_data [] [5] (by intro h hm; cases hm)).1,
   ((value_over_time_no_data [] [5] (by intro h hm; cases hm)).2
      [⟨⟨1, 0⟩, [⟨0, none, 2, 100, 100⟩]⟩] [3] ⟨3, 100, 0⟩
      (by simp [value_over_time, qualifies, openAsOf, aggregate_as_of,
        marketValueContrib, priceAsOf, lookupExact, lookupPrior])).1⟩

/-! ## Ticker resolver -/

/-- Claim C5: when a mapping for the exact (symbol, exchange) pair
exists, `resolve` returns that mapping's ticker with no probe calls
(the suffix heuristic and variation probing are never invoked), and the
result is independent of the probe oracle. -/
theorem resolve_existing_mapping (mappings : List ((String × String) × String))
    (probe : String → Bool) (sym exch t : String)
    (hm : lookupMapping mappings sym exch = some t) :
    resolve mappings probe sym exch = (.ok t, []) ∧
    ∀ probe' : String → Bool, resolve mappings probe' sym exch = (.ok t, []) := by
  have hall : ∀ pr : String → Bool, resolve mappings pr sym exch = (.ok t, []) := by
    intro pr
    unfold resolve
    rw [hm]
  exact ⟨hall probe, hall⟩

/-- Witness for C5: a manual mapping to a ticker different from the
suffix-heuristic candidate (`DBPG.DE`) is returned without any probe,
even under an oracle that would verify every candidate. -/
theorem resolve_existing_mapping_witness :
    resolve [(("DBPG", "IBIS2"), "CUSTOM.X")] (fun _ => true) "DBPG" "IBIS2" =
      (.ok "CUSTOM.X", []) ∧
    exchangeSuffix "IBIS2" = some ".DE" :=
  ⟨(resolve_existing_mapping [(("DBPG", "IBIS2"), "CUSTOM.X")] (fun _ => true)
      "DBPG" "IBIS2" "CUSTOM.X" (by simp [lookupMapping])).1, rfl⟩

/-- Witness for C8: determinism at a concrete series and positions
snapshot. -/
theorem metrics_deterministic_witness :
    maxDrawdown [100, 120, 90] = maxDrawdown [100, 120, 90] ∧
    sharpeRatio [100, 120, 90] = sharpeRatio [100, 120, 90] ∧
    winRate [⟨1, 10, 15, 5⟩] = winRate [⟨1, 10, 15, 5⟩] ∧
    performanceMetrics [⟨0, 10, 12⟩] = performanceMetrics [⟨0, 10, 12⟩] ∧
    concentration 5 [⟨1, 10, 15, 5⟩] = concentration 5 [⟨1, 10, 15, 5⟩] :=
  metrics_deterministic [100, 120, 90] [100, 120, 90] [⟨0, 10, 12⟩] [⟨0, 10, 12⟩]
    [⟨1, 10, 15, 5⟩] [⟨1, 10, 15, 5⟩] rfl rfl rfl

/-! ## Savings forecast -/

/-- Claim C10: for valid forecast inputs, each projected future value is
the rounded value of `PV(1+r)^m + PMT((1+r)^m − 1)/r` with monthly rate
`r = annual/1200` over `m = 12·year` months, the contributions term
being `PMT·m` when `r = 0` (which happens exactly when the annual rate
is `0`), so no division by zero occurs; each displayed projection is a
(finite) integer produced by rounding the `safeValue`-guarded amount. -/
theorem projections_future_value (pv pmt er : ℚ)
    (hpmt : 0 ≤ pmt ∧ pmt ≤ 1000000) (her : 0 ≤ er ∧ er ≤ 30) :
    ∀ e ∈ projections pv pmt er,
      e.futureValue =
        jsRound (safeValue (pv * (1 + er / 1200) ^ (e.year * 12) +
          (if er / 1200 = 0 then pmt * ((e.year * 12 : ℕ) : ℚ)
           else pmt * (((1 + er / 1200) ^ (e.year * 12) - 1) / (er / 1200))))) ∧
      (er / 1200 = 0 ↔ er = 0) := by
  intro e he
  obtain ⟨year, _, rfl⟩ := List.mem_map.mp he
  have h1200 : er / 100 / 12 = er / 1200 := by
    rw [div_div]
    norm_num
  constructor
  · show jsRound (safeValue _) = jsRound (safeValue _)
    rw [contributionsGrowth, h1200]
  · rw [div_eq_zero_iff]
    norm_num

/-- Witness for C10: with no starting value, a 100-euro monthly
contribution and a zero expected return, the one-year projection is the
rounded linear amount 1200. -/
theorem projections_future_value_witness :
    ((⟨1, 1200, 1200, 0, 0⟩ : ProjectionEntry) ∈ projections 0 100 0) ∧
    (⟨1, 1200, 1200, 0, 0⟩ : ProjectionEntry).futureValue =
      jsRound (safeValue ((0 : ℚ) * (1 + 0 / 1200) ^
          ((⟨1, 1200, 1200, 0, 0⟩ : ProjectionEntry).year * 12) +
        (if (0 : ℚ) / 1200 = 0 then
          100 * ((((⟨1, 1200, 1200, 0, 0⟩ : ProjectionEntry).year * 12 : ℕ)) : ℚ)
         else 100 * (((1 + 0 / 1200) ^
          ((⟨1, 1200, 1200, 0, 0⟩ : ProjectionEntry).year * 12) - 1) /
            (0 / 1200))))) := by
  have hm : (⟨1, 1200, 1200, 0, 0⟩ : ProjectionEntry) ∈ projections 0 100 0 := by
    have : projections 0 100 0 =
        [⟨1, 1200, 1200, 0, 0⟩, ⟨5, 6000, 6000, 0, 0⟩, ⟨10, 12000, 12000, 0, 0⟩,
         ⟨15, 18000, 18000, 0, 0⟩, ⟨20, 24000, 24000, 0, 0⟩] := by
      norm_num [projections, projectionYears, contributionsGrowth, safeValue,
        jsRound]
    rw [this]
    exact List.mem_cons_self _ _
  exact ⟨hm,
    ((projections_future_value 0 100 0 ⟨by norm_num, by norm_num⟩
      ⟨by norm_num, by norm_num⟩) _ hm).1⟩

end IBKR
